import Mathlib

/-!
Verification of the netsa.sql database-access indirection layer
(src/python/netsa/sql/__init__.py): the connection-URI parser
(db_parse_uri), the SQL template tokenizer and parameter rewriter
(_map_params and the db_query.get_variant_* methods), the query variant
selection (db_query.get_variant_sql), and the driver registry dispatch
(register_driver, db_connect).

Every definition below is a shallow embedding of the corresponding
Python function; strings are modelled as List Char (with String wrappers
where they make statements more readable), Python dicts of bindings as
association lists, exceptions as Option / Except results.
-/

namespace NetsaSql

/-! ### Generic string splitting helpers

The Python source splits strings with s.find(c) followed by slicing.
split_first c s models i = s.find(c); (s[:i], s[i+1:]) — it returns
the text before the first occurrence of c and the text after it, or
none when c does not occur.  break_at models (s[:i], s[i:]) — the
occurrence itself is kept at the head of the second component. -/

def split_first (t : Char) : List Char → Option (List Char × List Char)
  | [] => none
  | c :: cs =>
    if c = t then some ([], cs)
    else (split_first t cs).map (fun p => (c :: p.1, p.2))

def break_at (t : Char) : List Char → Option (List Char × List Char)
  | [] => none
  | c :: cs =>
    if c = t then some ([], c :: cs)
    else (break_at t cs).map (fun p => (c :: p.1, p.2))

/-- Python str.split(sep): "".split(sep) = [""], separators between every
pair of fields, empty fields kept. -/
def splitOnChar (sep : Char) : List Char → List (List Char)
  | [] => [[]]
  | c :: cs =>
    if c = sep then [] :: splitOnChar sep cs
    else
      match splitOnChar sep cs with
      | r :: rs => (c :: r) :: rs
      | [] => [[c]]

/-- Python p.split(sep, 1): split at the first occurrence only; a list of
one piece when the separator is absent, two pieces otherwise. -/
def splitEqOnce (cs : List Char) : List (List Char) :=
  match split_first '=' cs with
  | some p => [p.1, p.2]
  | none => [cs]

/-! ### Percent decoding (urllib.unquote / urllib.unquote_plus) -/

def isHexDigit (c : Char) : Bool :=
  ('0' ≤ c && c ≤ '9') || ('a' ≤ c && c ≤ 'f') || ('A' ≤ c && c ≤ 'F')

def hexVal (c : Char) : Nat :=
  if '0' ≤ c && c ≤ '9' then c.toNat - '0'.toNat
  else if 'a' ≤ c && c ≤ 'f' then c.toNat - 'a'.toNat + 10
  else c.toNat - 'A'.toNat + 10

/-- urllib.unquote: a percent sign followed by two hex digits decodes to
the corresponding character; otherwise the percent sign is literal. -/
def unquote : List Char → List Char
  | '%' :: c1 :: c2 :: rest =>
    if isHexDigit c1 && isHexDigit c2 then
      Char.ofNat (16 * hexVal c1 + hexVal c2) :: unquote rest
    else '%' :: unquote (c1 :: c2 :: rest)
  | c :: rest => c :: unquote rest
  | [] => []

/-- urllib.unquote_plus: plus signs become spaces, then percent-decode. -/
def unquotePlus (cs : List Char) : List Char :=
  unquote (cs.map (fun c => if c = '+' then ' ' else c))

/-! ### URI parser (db_parse_uri, source lines 568-626) -/

structure parsed_uri where
  scheme : String
  user : Option String
  password : Option String
  host : Option String
  port : Option String
  path : String
  params : List (List String)
  query : List (List String)
  fragment : Option String
deriving DecidableEq, Repr

/-- The network-location handling of db_parse_uri (source lines 586-594):
split at the first at-sign into user-info and host-port (when an at-sign
occurs), split user-info at its first colon into user and password, and
host-port at its first colon into host and port.  Returns
(user, password, host, port). -/
def parse_netloc (host0 : List Char) :
    Option (List Char) × Option (List Char) × List Char × Option (List Char) :=
  match split_first '@' host0 with
  | some up =>
    let updata : Option (List Char) × Option (List Char) :=
      match split_first ':' up.1 with
      | some q => (some q.1, some q.2)
      | none => (some up.1, none)
    let hpdata : List Char × Option (List Char) :=
      match split_first ':' up.2 with
      | some q => (q.1, some q.2)
      | none => (up.2, none)
    (updata.1, updata.2, hpdata.1, hpdata.2)
  | none =>
    let hpdata : List Char × Option (List Char) :=
      match split_first ':' host0 with
      | some q => (q.1, some q.2)
      | none => (host0, none)
    (none, none, hpdata.1, hpdata.2)

/-- The fragment/query/params peeling of db_parse_uri (source lines
595-604): split off the text after the first hash mark, then after the
first question mark, then after the first semicolon; what remains is the
path.  Returns (path, params, query, fragment). -/
def parse_rest (uri : List Char) :
    List Char × Option (List Char) × Option (List Char) × Option (List Char) :=
  let f1 : List Char × Option (List Char) :=
    match split_first '#' uri with
    | some p => (p.1, some p.2)
    | none => (uri, none)
  let f2 : List Char × Option (List Char) :=
    match split_first '?' f1.1 with
    | some p => (p.1, some p.2)
    | none => (f1.1, none)
  let f3 : List Char × Option (List Char) :=
    match split_first ';' f2.1 with
    | some p => (p.1, some p.2)
    | none => (f2.1, none)
  (f3.1, f3.2, f2.2, f1.2)

/-- db_parse_uri params pre-split (source lines 606-610): split at
semicolons, each piece split at its first equals sign, all pieces
percent-decoded. -/
def parse_params_list : Option (List Char) → List (List String)
  | none => []
  | some p =>
    (splitOnChar ';' p).map (fun kv => (splitEqOnce kv).map (fun x => (unquote x).asString))

/-- db_parse_uri query pre-split (source lines 611-615): split at
ampersands, each piece split at its first equals sign, pieces decoded
with unquote_plus. -/
def parse_query_list : Option (List Char) → List (List String)
  | none => []
  | some q =>
    (splitOnChar '&' q).map (fun kv => (splitEqOnce kv).map (fun x => (unquotePlus x).asString))

/-- db_parse_uri (source lines 568-626).  Fails (none) when no colon
separates a scheme; the scheme is lower-cased.  When the remainder
starts with a double slash, the network location runs up to the first
slash if any, else the first question mark, else the first hash, else
the end; otherwise user, password, host and port stay unset. -/
def db_parse_uri (s : String) : Option parsed_uri :=
  match split_first ':' s.toList with
  | none => none
  | some schemeRest =>
    let scheme := (schemeRest.1.map Char.toLower).asString
    match schemeRest.2 with
    | '/' :: '/' :: uri2 =>
      let hr : List Char × List Char :=
        match break_at '/' uri2 with
        | some p => p
        | none =>
          match break_at '?' uri2 with
          | some p => p
          | none =>
            match break_at '#' uri2 with
            | some p => p
            | none => (uri2, [])
      let np := parse_netloc hr.1
      let pr := parse_rest hr.2
      some {
        scheme := scheme,
        user := np.1.map List.asString,
        password := np.2.1.map List.asString,
        host := some np.2.2.1.asString,
        port := np.2.2.2.map List.asString,
        path := pr.1.asString,
        params := parse_params_list pr.2.1,
        query := parse_query_list pr.2.2.1,
        fragment := pr.2.2.2.map List.asString }
    | rest =>
      let pr := parse_rest rest
      some {
        scheme := scheme,
        user := none,
        password := none,
        host := none,
        port := none,
        path := pr.1.asString,
        params := parse_params_list pr.2.1,
        query := parse_query_list pr.2.2.1,
        fragment := pr.2.2.2.map List.asString }

/-! ### Driver registry and dispatch (source lines 253-366) -/

/-- A database driver as consumed by db_connect: a capability check on
the URI scheme and a connect operation that may return no connection. -/
structure db_driver (α : Type) where
  can_handle : String → Bool
  connect : String → Option String → Option String → Option α

inductive sql_error where
  | invalid_uri
  | no_driver
deriving DecidableEq, Repr

/-- register_driver (source lines 276-288): appends the driver to the
registry unless it is already present. -/
def register_driver {δ : Type} [DecidableEq δ] (d : δ) (drivers : List δ) : List δ :=
  if d ∈ drivers then drivers else drivers ++ [d]

/-- db_connect (source lines 327-366): parse the URI, then scan the
registered drivers in order and return the result of the first driver
whose can_handle accepts the scheme — whatever that result is.  The
no-driver error is raised only when the scan finds no capable driver. -/
def db_connect {α : Type} (drivers : List (db_driver α)) (uri : String)
    (user password : Option String) : Except sql_error (Option α) :=
  match db_parse_uri uri with
  | none => Except.error sql_error.invalid_uri
  | some p =>
    match drivers.find? (fun d => d.can_handle p.scheme) with
    | some d => Except.ok (d.connect uri user password)
    | none => Except.error sql_error.no_driver

/-! ### SQL template tokenizer (source lines 391-430)

The three token grammars, translated from the regular expressions

  query_param_exp: a colon followed by an identifier
  query_quote_exp: a single-quoted literal with backslash escapes,
    doubled quotes, and the quote-whitespace-newline continuation form
  query_other_exp: the longest nonempty run of characters free of colons
    and quotes, except that a double colon counts as ordinary text

matched in that order at each position, with a one-character fallback
when none of the three matches. -/

def isIdentStart (c : Char) : Bool :=
  ('a' ≤ c && c ≤ 'z') || ('A' ≤ c && c ≤ 'Z') || c = '_'

def isIdentChar (c : Char) : Bool :=
  isIdentStart c || ('0' ≤ c && c ≤ '9')

/-- Longest run of identifier characters at the head of the input. -/
def identRun : List Char → List Char × List Char
  | [] => ([], [])
  | c :: cs =>
    if isIdentChar c then ((identRun cs).1.cons c, (identRun cs).2)
    else ([], c :: cs)

/-- query_param_re match: a colon then an identifier.  Returns the
parameter name (without the colon) and the rest of the input. -/
def matchParam : List Char → Option (List Char × List Char)
  | c1 :: c2 :: cs =>
    if c1 = ':' ∧ isIdentStart c2 then some ((identRun cs).1.cons c2, (identRun cs).2)
    else none
  | _ => none

/-- query_other_re match body: the longest run matching
([^:'] | ::)+ — greedy, a lone colon or a quote ends the run. -/
def otherRun : List Char → List Char × List Char
  | [] => ([], [])
  | [c] => if c = '\'' ∨ c = ':' then ([], [c]) else ([c], [])
  | c :: c2 :: cs =>
    if c = '\'' then ([], c :: c2 :: cs)
    else if c = ':' then
      if c2 = ':' then (c :: c2 :: (otherRun cs).1, (otherRun cs).2)
      else ([], c :: c2 :: cs)
    else ((otherRun (c2 :: cs)).1.cons c, (otherRun (c2 :: cs)).2)

def matchOther (cs : List Char) : Option (List Char × List Char) :=
  match otherRun cs with
  | ([], _) => none
  | (r, rest) => some (r, rest)

/-- Run of spaces and tabs at the head of the input. -/
def wsRun : List Char → List Char × List Char
  | [] => ([], [])
  | c :: cs =>
    if c = ' ' ∨ c = '\t' then ((wsRun cs).1.cons c, (wsRun cs).2)
    else ([], c :: cs)

/-- After the opening quote and the whitespace run of the continuation
alternative: a newline, one character from space/tab/asterisk, a
quote. -/
def contAfterWs : List Char → Option (List Char × List Char)
  | c1 :: c2 :: c3 :: rest2 =>
    if c1 = '\n' ∧ (c2 = ' ' ∨ c2 = '\t' ∨ c2 = '*') ∧ c3 = '\'' then
      some ([c1, c2, c3], rest2)
    else none
  | _ => none

/-- The fourth interior alternative of query_quote_exp: a quote, spaces
or tabs, a newline, one character from space/tab/asterisk, a quote. -/
def matchCont : List Char → Option (List Char × List Char)
  | [] => none
  | c0 :: cs =>
    if c0 = '\'' then
      (contAfterWs (wsRun cs).2).map (fun p => (c0 :: ((wsRun cs).1 ++ p.1), p.2))
    else none

/-- Interior of query_quote_exp after the opening quote, following the
regex engine's backtracking order: plain characters and
backslash-escaped pairs are consumed; at a quote the engine first tries
a doubled quote, then the quote-newline continuation form, and finally
closes the literal.  The fuel argument bounds recursion; each call
consumes at least one character so fuel equal to the input length always
suffices.  Returns the consumed text (ending with the closing quote)
and the rest. -/
def quoteInnerF : Nat → List Char → Option (List Char × List Char)
  | 0, _ => none
  | _ + 1, [] => none
  | f + 1, c :: cs =>
    if c = '\'' then
      match cs with
      | c2 :: cs2 =>
        if c2 = '\'' then
          match quoteInnerF f cs2 with
          | some mr => some ('\'' :: '\'' :: mr.1, mr.2)
          | none =>
            match matchCont ('\'' :: cs) with
            | some mr =>
              match quoteInnerF f mr.2 with
              | some mr2 => some (mr.1 ++ mr2.1, mr2.2)
              | none => some (['\''], cs)
            | none => some (['\''], cs)
        else
          match matchCont ('\'' :: cs) with
          | some mr =>
            match quoteInnerF f mr.2 with
            | some mr2 => some (mr.1 ++ mr2.1, mr2.2)
            | none => some (['\''], cs)
          | none => some (['\''], cs)
      | [] => some (['\''], [])
    else if c = '\\' then
      match cs with
      | c2 :: cs2 =>
        match quoteInnerF f cs2 with
        | some mr => some (c :: c2 :: mr.1, mr.2)
        | none => none
      | [] => none
    else
      match quoteInnerF f cs with
      | some mr => some (c :: mr.1, mr.2)
      | none => none

/-- query_quote_re match: an opening quote followed by the interior.
Returns the whole matched literal (quotes included) and the rest. -/
def matchQuote : List Char → Option (List Char × List Char)
  | c :: cs =>
    if c = '\'' then
      match quoteInnerF cs.length cs with
      | some mr => some (c :: mr.1, mr.2)
      | none => none
    else none
  | [] => none

/-- A span emitted by the _map_params scan: a parameter reference (name
without its colon), a quoted literal, or other text (which also covers
the one-character fallback). -/
inductive SqlTok where
  | param (name : List Char)
  | quoted (text : List Char)
  | other (text : List Char)
deriving DecidableEq, Repr

/-- The source text a span stands for. -/
def tokSrc : SqlTok → List Char
  | SqlTok.param n => ':' :: n
  | SqlTok.quoted t => t
  | SqlTok.other t => t

def concatSrc : List SqlTok → List Char
  | [] => []
  | t :: ts => tokSrc t ++ concatSrc ts

/-- The scanning loop of _map_params (source lines 407-430): at each
position try the param regex, then the quote regex, then the other
regex; when none matches, emit the single character at the position and
advance by one.  Fuel bounds the loop; every step consumes at least one
character, so fuel equal to the input length suffices. -/
def tokenizeGo : Nat → List Char → List SqlTok
  | 0, _ => []
  | _ + 1, [] => []
  | f + 1, c :: cs =>
    match matchParam (c :: cs) with
    | some p => SqlTok.param p.1 :: tokenizeGo f p.2
    | none =>
      match matchQuote (c :: cs) with
      | some q => SqlTok.quoted q.1 :: tokenizeGo f q.2
      | none =>
        match matchOther (c :: cs) with
        | some o => SqlTok.other o.1 :: tokenizeGo f o.2
        | none => SqlTok.other [c] :: tokenizeGo f cs

def tokenize (cs : List Char) : List SqlTok :=
  tokenizeGo cs.length cs

/-- The parameter names recorded by _map_params_positional, in
left-to-right occurrence order, duplicates kept. -/
def paramNamesOf : List SqlTok → List String
  | [] => []
  | SqlTok.param n :: ts => n.asString :: paramNamesOf ts
  | SqlTok.quoted _ :: ts => paramNamesOf ts
  | SqlTok.other _ :: ts => paramNamesOf ts

/-- Emission half of _map_params: each param span is replaced by the
placeholder text (which may depend on the running count of params seen
so far, as the numeric style needs), every other span goes through the
other-text transform. -/
def renderToks (paramF : Nat → List Char → List Char)
    (otherF : List Char → List Char) : Nat → List SqlTok → List Char
  | _, [] => []
  | k, SqlTok.param n :: ts => paramF k n ++ renderToks paramF otherF (k + 1) ts
  | k, SqlTok.quoted t :: ts => otherF t ++ renderToks paramF otherF k ts
  | k, SqlTok.other t :: ts => otherF t ++ renderToks paramF otherF k ts

/-- _map_params (source lines 399-430): scan and emit. -/
def map_params (sql : List Char) (paramF : List Char → List Char)
    (otherF : List Char → List Char) : List Char :=
  renderToks (fun _ n => paramF n) otherF 0 (tokenize sql)

/-- The percent-escaping other-text transform of the format and pyformat
styles: x.replace with every percent sign doubled. -/
def percentEscape : List Char → List Char
  | [] => []
  | c :: cs =>
    if c = '%' then '%' :: '%' :: percentEscape cs
    else c :: percentEscape cs

/-- The Python list comprehension [params[p] for p in param_names]:
looks every recorded name up in the caller's bindings, failing (none)
when any name is absent. -/
def lookupParams {α : Type} (bindings : List (String × α)) : List String → Option (List α)
  | [] => some []
  | n :: ns =>
    match bindings.lookup n with
    | some v =>
      match lookupParams bindings ns with
      | some vs => some (v :: vs)
      | none => none
    | none => none

/-! ### Query templates (db_query, source lines 439-564) -/

/-- db_query: a default SQL body plus named dialect variants.  The
Python variants dict (built from keyword arguments, so keys are
distinct) is modelled as an association list. -/
structure db_query where
  sql : String
  variants : List (String × String)

/-- db_query.get_variant_sql (source lines 485-495): the first accepted
variant tag present in the variants mapping wins; otherwise the default
SQL. -/
def get_variant_sql (q : db_query) : List String → String
  | [] => q.sql
  | v :: rest =>
    match q.variants.lookup v with
    | some s => s
    | none => get_variant_sql q rest

/-- db_query.get_variant_qmark_params (source lines 496-506): question
mark placeholders, positional arguments looked up by recorded name. -/
def get_variant_qmark_params {α : Type} (q : db_query) (accepted : List String)
    (bindings : List (String × α)) : Option (String × List α) :=
  let toks := tokenize (get_variant_sql q accepted).toList
  match lookupParams bindings (paramNamesOf toks) with
  | some args => some ((renderToks (fun _ _ => ['?']) (fun t => t) 0 toks).asString, args)
  | none => none

/-- db_query.get_variant_numeric_params (source lines 507-518): numbered
colon placeholders from a running one-based counter, positional
arguments looked up by recorded name. -/
def get_variant_numeric_params {α : Type} (q : db_query) (accepted : List String)
    (bindings : List (String × α)) : Option (String × List α) :=
  let toks := tokenize (get_variant_sql q accepted).toList
  match lookupParams bindings (paramNamesOf toks) with
  | some args =>
    some ((renderToks (fun k _ => ':' :: (toString (k + 1)).toList) (fun t => t) 0 toks).asString,
      args)
  | none => none

/-- db_query.get_variant_named_params (source lines 519-530): the
placeholder is the colon-name token itself and the caller's bindings are
returned unchanged. -/
def get_variant_named_params {α : Type} (q : db_query) (accepted : List String)
    (bindings : List (String × α)) : String × List (String × α) :=
  ((renderToks (fun _ n => ':' :: n) (fun t => t) 0
      (tokenize (get_variant_sql q accepted).toList)).asString,
    bindings)

/-- db_query.get_variant_format_params (source lines 531-548):
percent-s placeholders, literal percent signs doubled, positional
arguments looked up by recorded name. -/
def get_variant_format_params {α : Type} (q : db_query) (accepted : List String)
    (bindings : List (String × α)) : Option (String × List α) :=
  let toks := tokenize (get_variant_sql q accepted).toList
  match lookupParams bindings (paramNamesOf toks) with
  | some args =>
    some ((renderToks (fun _ _ => ['%', 's']) percentEscape 0 toks).asString, args)
  | none => none

/-- db_query.get_variant_pyformat_params (source lines 549-564):
percent-parenthesised-name placeholders, literal percent signs doubled,
the caller's bindings returned unchanged. -/
def get_variant_pyformat_params {α : Type} (q : db_query) (accepted : List String)
    (bindings : List (String × α)) : String × List (String × α) :=
  ((renderToks (fun _ n => '%' :: '(' :: (n ++ [')', 's'])) percentEscape 0
      (tokenize (get_variant_sql q accepted).toList)).asString,
    bindings)

/-! ### Concrete drivers used in witnesses -/

/-- A driver that accepts only the scheme x and always connects. -/
def demo_driver : db_driver Nat :=
  { can_handle := fun s => s == "x", connect := fun _ _ _ => some 7 }

/-- A driver that accepts no scheme at all. -/
def deaf_driver : db_driver Nat :=
  { can_handle := fun _ => false, connect := fun _ _ _ => some 1 }

/-- A driver that accepts every scheme but never produces a
connection. -/
def null_driver : db_driver Nat :=
  { can_handle := fun _ => true, connect := fun _ _ _ => none }

/-! ### Helper lemmas -/

theorem toList_asString (s : String) : (s.toList).asString = s := by
  cases s
  rfl

theorem split_first_append (t : Char) (a b : List Char) (ha : t ∉ a) :
    split_first t (a ++ t :: b) = some (a, b) := by
  induction a with
  | nil => simp [split_first]
  | cons c a ih =>
    have hct : ¬ c = t := fun h => ha (h ▸ List.mem_cons_self c a)
    have hta : t ∉ a := fun h => ha (List.mem_cons_of_mem c h)
    simp [split_first, hct, ih hta]

theorem split_first_of_not_mem (t : Char) (cs : List Char) (h : t ∉ cs) :
    split_first t cs = none := by
  induction cs with
  | nil => rfl
  | cons c cs ih =>
    have hct : ¬ c = t := fun hh => h (hh ▸ List.mem_cons_self c cs)
    have htc : t ∉ cs := fun hh => h (List.mem_cons_of_mem c hh)
    simp [split_first, hct, ih htc]

theorem identRun_append (cs : List Char) : (identRun cs).1 ++ (identRun cs).2 = cs := by
  induction cs with
  | nil => rfl
  | cons c cs ih =>
    by_cases h : isIdentChar c = true
    · simp [identRun, h, ih]
    · simp [identRun, h]

theorem matchParam_some (cs n rest : List Char) (h : matchParam cs = some (n, rest)) :
    cs = ':' :: (n ++ rest) ∧ n ≠ [] := by
  match cs with
  | [] => simp [matchParam] at h
  | [c] => simp [matchParam] at h
  | c1 :: c2 :: cs' =>
    by_cases hc : c1 = ':' ∧ isIdentStart c2 = true
    · simp [matchParam, hc] at h
      obtain ⟨hn, hr⟩ := h
      refine ⟨?_, ?_⟩
      · rw [hc.1, ← hn, ← hr]
        simp [identRun_append cs']
      · rw [← hn]; simp
    · simp [matchParam, hc] at h

theorem matchParam_none_of_head (c : Char) (cs : List Char) (hc : c ≠ ':') :
    matchParam (c :: cs) = none := by
  match cs with
  | [] => rfl
  | c2 :: cs' => simp [matchParam, hc]

theorem otherRun_append (cs : List Char) : (otherRun cs).1 ++ (otherRun cs).2 = cs := by
  induction cs using otherRun.induct with
  | case1 => rfl
  | case2 c h => simp [otherRun, h]
  | case3 c h => simp [otherRun, h]
  | case4 c2 cs => simp [otherRun]
  | case5 cs h ih => simp [otherRun, ih]
  | case6 c2 cs h1 h2 => simp [otherRun, h1]
  | case7 c c2 cs h1 h2 ih => simp [otherRun, h1, h2, ih]

theorem matchOther_some (cs t rest : List Char) (h : matchOther cs = some (t, rest)) :
    t ++ rest = cs ∧ t ≠ [] := by
  unfold matchOther at h
  match hr : otherRun cs with
  | ([], r2) => rw [hr] at h; simp at h
  | (c :: r1, r2) =>
    rw [hr] at h
    simp at h
    obtain ⟨h1, h2⟩ := h
    have := otherRun_append cs
    rw [hr] at this
    subst h1 h2
    simpa using this

theorem wsRun_append (cs : List Char) : (wsRun cs).1 ++ (wsRun cs).2 = cs := by
  induction cs with
  | nil => rfl
  | cons c cs ih =>
    by_cases h : c = ' ' ∨ c = '\t'
    · simp [wsRun, h, ih]
    · simp [wsRun, h]

theorem contAfterWs_some (l m3 rest2 : List Char) (h : contAfterWs l = some (m3, rest2)) :
    m3 ++ rest2 = l ∧ m3 ≠ [] := by
  match l with
  | [] => simp [contAfterWs] at h
  | [c1] => simp [contAfterWs] at h
  | [c1, c2] => simp [contAfterWs] at h
  | c1 :: c2 :: c3 :: r =>
    by_cases hc : c1 = '\n' ∧ (c2 = ' ' ∨ c2 = '\t' ∨ c2 = '*') ∧ c3 = '\''
    · obtain ⟨hc1, hcc, hc3⟩ := hc
      subst hc1 hc3
      simp [contAfterWs, hcc] at h
      obtain ⟨h1, h2⟩ := h
      subst h1 h2
      simp
    · simp [contAfterWs, hc] at h

theorem matchCont_some (cs m rest : List Char) (h : matchCont cs = some (m, rest)) :
    m ++ rest = cs ∧ m ≠ [] := by
  match cs with
  | [] => simp [matchCont] at h
  | c0 :: cs1 =>
    by_cases hc : c0 = '\''
    · subst hc
      match hca : contAfterWs (wsRun cs1).2 with
      | none => simp [matchCont, hca] at h
      | some p =>
        simp [matchCont, hca] at h
        obtain ⟨h1, h2⟩ := h
        obtain ⟨hp, hp2⟩ := contAfterWs_some (wsRun cs1).2 p.1 p.2 (by rw [hca])
        subst h1 h2
        constructor
        · have hws := wsRun_append cs1
          simp only [List.cons_append, List.append_assoc]
          rw [hp, hws]
        · simp
    · simp [matchCont, hc] at h

theorem quoteInnerF_some (f : Nat) :
    ∀ (cs m rest : List Char), quoteInnerF f cs = some (m, rest) →
      m ++ rest = cs ∧ m ≠ [] := by
  induction f with
  | zero => intro cs m rest h; simp [quoteInnerF] at h
  | succ f ih =>
    intro cs m rest h
    match cs with
    | [] => simp [quoteInnerF] at h
    | c :: cs1 =>
      by_cases hc : c = '\''
      · subst hc
        match cs1 with
        | [] =>
          simp [quoteInnerF] at h
          obtain ⟨h1, h2⟩ := h
          subst h1 h2
          simp
        | c2 :: cs2 =>
          by_cases hc2 : c2 = '\''
          · subst hc2
            match hq : quoteInnerF f cs2 with
            | some mr =>
              simp [quoteInnerF, hq] at h
              obtain ⟨h1, h2⟩ := h
              obtain ⟨hmr, _⟩ := ih cs2 mr.1 mr.2 (by rw [hq])
              subst h1 h2
              simp [hmr]
            | none =>
              match hmc : matchCont ('\'' :: '\'' :: cs2) with
              | some mr =>
                match hq2 : quoteInnerF f mr.2 with
                | some mr2 =>
                  simp [quoteInnerF, hq, hmc, hq2] at h
                  obtain ⟨h1, h2⟩ := h
                  obtain ⟨hmc1, hmc2⟩ := matchCont_some _ mr.1 mr.2 (by rw [hmc])
                  obtain ⟨hq21, _⟩ := ih mr.2 mr2.1 mr2.2 (by rw [hq2])
                  subst h1 h2
                  constructor
                  · rw [List.append_assoc, hq21, hmc1]
                  · simp [hmc2]
                | none =>
                  simp [quoteInnerF, hq, hmc, hq2] at h
                  obtain ⟨h1, h2⟩ := h
                  subst h1 h2
                  simp
              | none =>
                simp [quoteInnerF, hq, hmc] at h
                obtain ⟨h1, h2⟩ := h
                subst h1 h2
                simp
          · match hmc : matchCont ('\'' :: c2 :: cs2) with
            | some mr =>
              match hq2 : quoteInnerF f mr.2 with
              | some mr2 =>
                simp [quoteInnerF, hc2, hmc, hq2] at h
                obtain ⟨h1, h2⟩ := h
                obtain ⟨hmc1, hmc2⟩ := matchCont_some _ mr.1 mr.2 (by rw [hmc])
                obtain ⟨hq21, _⟩ := ih mr.2 mr2.1 mr2.2 (by rw [hq2])
                subst h1 h2
                constructor
                · rw [List.append_assoc, hq21, hmc1]
                · simp [hmc2]
              | none =>
                simp [quoteInnerF, hc2, hmc, hq2] at h
                obtain ⟨h1, h2⟩ := h
                subst h1 h2
                simp
            | none =>
              simp [quoteInnerF, hc2, hmc] at h
              obtain ⟨h1, h2⟩ := h
              subst h1 h2
              simp
      · by_cases hb : c = '\\'
        · subst hb
          match cs1 with
          | [] => simp [quoteInnerF, hc] at h
          | c2 :: cs2 =>
            match hq : quoteInnerF f cs2 with
            | some mr =>
              simp [quoteInnerF, hc, hq] at h
              obtain ⟨h1, h2⟩ := h
              obtain ⟨hmr, _⟩ := ih cs2 mr.1 mr.2 (by rw [hq])
              subst h1 h2
              simp [hmr]
            | none => simp [quoteInnerF, hc, hq] at h
        · match hq : quoteInnerF f cs1 with
          | some mr =>
            simp [quoteInnerF, hc, hb, hq] at h
            obtain ⟨h1, h2⟩ := h
            obtain ⟨hmr, _⟩ := ih cs1 mr.1 mr.2 (by rw [hq])
            subst h1 h2
            simp [hmr]
          | none => simp [quoteInnerF, hc, hb, hq] at h

theorem matchQuote_some (cs t rest : List Char) (h : matchQuote cs = some (t, rest)) :
    t ++ rest = cs ∧ ∃ t2, t = '\'' :: t2 := by
  match cs with
  | [] => simp [matchQuote] at h
  | c :: cs1 =>
    by_cases hc : c = '\''
    · subst hc
      match hq : quoteInnerF cs1.length cs1 with
      | some mr =>
        simp [matchQuote, hq] at h
        obtain ⟨h1, h2⟩ := h
        obtain ⟨hmr, _⟩ := quoteInnerF_some cs1.length cs1 mr.1 mr.2 (by rw [hq])
        subst h1 h2
        exact ⟨by simp [hmr], mr.1, rfl⟩
      | none => simp [matchQuote, hq] at h
    · simp [matchQuote, hc] at h

theorem tokenizeGo_nil (f : Nat) : tokenizeGo f [] = [] := by
  cases f <;> rfl

theorem tokenizeGo_fuel :
    ∀ (f1 f2 : Nat) (cs : List Char), cs.length ≤ f1 → cs.length ≤ f2 →
      tokenizeGo f1 cs = tokenizeGo f2 cs := by
  intro f1
  induction f1 with
  | zero =>
    intro f2 cs h1 _
    have : cs = [] := List.eq_nil_of_length_eq_zero (Nat.le_zero.1 h1)
    subst this
    rw [tokenizeGo_nil, tokenizeGo_nil]
  | succ f1 ih =>
    intro f2 cs h1 h2
    match cs with
    | [] => rw [tokenizeGo_nil, tokenizeGo_nil]
    | c :: cs1 =>
      match f2 with
      | 0 => simp at h2
      | f2 + 1 =>
        simp only [List.length_cons] at h1 h2
        match hp : matchParam (c :: cs1) with
        | some p =>
          obtain ⟨hpe, hpn⟩ := matchParam_some _ p.1 p.2 (by rw [hp])
          have hlen : p.2.length ≤ cs1.length := by
            have := congrArg List.length hpe
            simp [List.length_append] at this
            omega
          simp only [tokenizeGo, hp]
          rw [ih f2 p.2 (by omega) (by omega)]
        | none =>
          match hq : matchQuote (c :: cs1) with
          | some q =>
            obtain ⟨hqe, _, _⟩ := matchQuote_some _ q.1 q.2 (by rw [hq])
            have hq1 : q.1 ≠ [] := by
              obtain ⟨_, t2, ht⟩ := matchQuote_some _ q.1 q.2 (by rw [hq])
              simp [ht]
            have hlen : q.2.length ≤ cs1.length := by
              have := congrArg List.length hqe
              simp [List.length_append] at this
              have : 1 ≤ q.1.length := List.length_pos.2 hq1
              omega
            simp only [tokenizeGo, hp, hq]
            rw [ih f2 q.2 (by omega) (by omega)]
          | none =>
            match ho : matchOther (c :: cs1) with
            | some o =>
              obtain ⟨hoe, hon⟩ := matchOther_some _ o.1 o.2 (by rw [ho])
              have hlen : o.2.length ≤ cs1.length := by
                have := congrArg List.length hoe
                simp [List.length_append] at this
                have : 1 ≤ o.1.length := List.length_pos.2 hon
                omega
              simp only [tokenizeGo, hp, hq, ho]
              rw [ih f2 o.2 (by omega) (by omega)]
            | none =>
              simp only [tokenizeGo, hp, hq, ho]
              rw [ih f2 cs1 (by omega) (by omega)]

theorem tokenize_concat_go :
    ∀ (f : Nat) (cs : List Char), cs.length ≤ f → concatSrc (tokenizeGo f cs) = cs := by
  intro f
  induction f with
  | zero =>
    intro cs h1
    have : cs = [] := List.eq_nil_of_length_eq_zero (Nat.le_zero.1 h1)
    subst this
    rfl
  | succ f ih =>
    intro cs h1
    match cs with
    | [] => rfl
    | c :: cs1 =>
      simp only [List.length_cons] at h1
      match hp : matchParam (c :: cs1) with
      | some p =>
        obtain ⟨hpe, hpn⟩ := matchParam_some _ p.1 p.2 (by rw [hp])
        have hlen : p.2.length ≤ cs1.length := by
          have := congrArg List.length hpe
          simp [List.length_append] at this
          omega
        simp only [tokenizeGo, hp, concatSrc, tokSrc]
        rw [ih p.2 (by omega)]
        exact hpe.symm
      | none =>
        match hq : matchQuote (c :: cs1) with
        | some q =>
          obtain ⟨hqe, t2, ht⟩ := matchQuote_some _ q.1 q.2 (by rw [hq])
          have hq1 : q.1 ≠ [] := by simp [ht]
          have hlen : q.2.length ≤ cs1.length := by
            have := congrArg List.length hqe
            simp [List.length_append] at this
            have : 1 ≤ q.1.length := List.length_pos.2 hq1
            omega
          simp only [tokenizeGo, hp, hq, concatSrc, tokSrc]
          rw [ih q.2 (by omega)]
          exact hqe
        | none =>
          match ho : matchOther (c :: cs1) with
          | some o =>
            obtain ⟨hoe, hon⟩ := matchOther_some _ o.1 o.2 (by rw [ho])
            have hlen : o.2.length ≤ cs1.length := by
              have := congrArg List.length hoe
              simp [List.length_append] at this
              have : 1 ≤ o.1.length := List.length_pos.2 hon
              omega
            simp only [tokenizeGo, hp, hq, ho, concatSrc, tokSrc]
            rw [ih o.2 (by omega)]
            exact hoe
          | none =>
            simp only [tokenizeGo, hp, hq, ho, concatSrc, tokSrc]
            rw [ih cs1 (by omega)]
            rfl

theorem tokenize_concat (cs : List Char) : concatSrc (tokenize cs) = cs :=
  tokenize_concat_go cs.length cs (Nat.le_refl _)

theorem tokenize_quote_step (cs t rest : List Char) (h : matchQuote cs = some (t, rest)) :
    tokenize cs = SqlTok.quoted t :: tokenize rest := by
  obtain ⟨he, t2, ht⟩ := matchQuote_some cs t rest h
  match cs with
  | [] => simp [matchQuote] at h
  | c :: cs1 =>
    rw [ht, List.cons_append] at he
    injection he with hc hrest
    have hp : matchParam (c :: cs1) = none :=
      matchParam_none_of_head c cs1 (by rw [← hc]; decide)
    have hlt : t.length + rest.length = cs1.length + 1 := by
      have h2 := congrArg List.length (matchQuote_some (c :: cs1) t rest h).1
      simpa [List.length_append] using h2
    have htp : 1 ≤ t.length := by rw [ht]; simp
    simp only [tokenize, List.length_cons, tokenizeGo, hp, h]
    rw [tokenizeGo_fuel cs1.length rest.length rest (by omega) (Nat.le_refl _)]

theorem tokSrc_ne_nil_go :
    ∀ (f : Nat) (cs : List Char) (t : SqlTok), t ∈ tokenizeGo f cs → tokSrc t ≠ [] := by
  intro f
  induction f with
  | zero => intro cs t h; simp [tokenizeGo] at h
  | succ f ih =>
    intro cs t h
    match cs with
    | [] => simp [tokenizeGo] at h
    | c :: cs1 =>
      match hp : matchParam (c :: cs1) with
      | some p =>
        simp only [tokenizeGo, hp, List.mem_cons] at h
        rcases h with h | h
        · subst h; simp [tokSrc]
        · exact ih p.2 t h
      | none =>
        match hq : matchQuote (c :: cs1) with
        | some q =>
          simp only [tokenizeGo, hp, hq, List.mem_cons] at h
          rcases h with h | h
          · subst h
            obtain ⟨_, t2, ht⟩ := matchQuote_some _ q.1 q.2 (by rw [hq])
            simp [tokSrc, ht]
          · exact ih q.2 t h
        | none =>
          match ho : matchOther (c :: cs1) with
          | some o =>
            simp only [tokenizeGo, hp, hq, ho, List.mem_cons] at h
            rcases h with h | h
            · subst h
              obtain ⟨_, hon⟩ := matchOther_some _ o.1 o.2 (by rw [ho])
              simpa [tokSrc] using hon
            · exact ih o.2 t h
          | none =>
            simp only [tokenizeGo, hp, hq, ho, List.mem_cons] at h
            rcases h with h | h
            · subst h; simp [tokSrc]
            · exact ih cs1 t h

theorem renderToks_named (k : Nat) (ts : List SqlTok) :
    renderToks (fun _ n => ':' :: n) (fun t => t) k ts = concatSrc ts := by
  induction ts generalizing k with
  | nil => rfl
  | cons t ts ih => cases t <;> simp [renderToks, concatSrc, tokSrc, ih]

theorem lookupParams_none {α : Type} (b : List (String × α)) (ns : List String) (n : String)
    (hn : n ∈ ns) (hb : b.lookup n = none) : lookupParams b ns = none := by
  induction ns with
  | nil => simp at hn
  | cons m ns ih =>
    rcases List.mem_cons.1 hn with h1 | h2
    · subst h1
      simp [lookupParams, hb]
    · match hm : b.lookup m with
      | none => simp [lookupParams, hm]
      | some v => simp [lookupParams, hm, ih h2]

theorem lookupParams_isSome {α : Type} (b : List (String × α)) (ns : List String)
    (h : ∀ n ∈ ns, (b.lookup n).isSome) : (lookupParams b ns).isSome := by
  induction ns with
  | nil => simp [lookupParams]
  | cons m ns ih =>
    have hm := h m (List.mem_cons_self m ns)
    obtain ⟨v, hv⟩ := Option.isSome_iff_exists.1 hm
    have hrec := ih (fun n hn => h n (List.mem_cons_of_mem m hn))
    obtain ⟨vs, hvs⟩ := Option.isSome_iff_exists.1 hrec
    simp [lookupParams, hv, hvs]

theorem percentEscape_count (t : List Char) :
    (percentEscape t).count '%' = 2 * t.count '%' := by
  induction t with
  | nil => rfl
  | cons c cs ih =>
    by_cases hc : c = '%'
    · subst hc
      simp [percentEscape, List.count_cons, ih]
      omega
    · simp [percentEscape, hc, List.count_cons, ih]

/-! ### Claim theorems -/

/-- C1 counterexample: a registered driver whose can_handle accepts the
scheme but whose connect returns no connection makes db_connect return
that empty result to the caller; it does not raise the no-driver error,
contradicting the claim that db_connect never returns a none connection. -/
theorem c1_counterexample :
    db_connect [null_driver] "x:y" none none = Except.ok none ∧
    (Except.ok none : Except sql_error (Option Nat)) ≠ Except.error sql_error.no_driver :=
  ⟨rfl, fun h => Except.noConfusion h⟩

/-- C1 (amended): when the URI parses, db_connect returns the result of
the first driver in registration order whose can_handle accepts the
scheme — whatever that result is, including no connection — and fails
with the no-driver error exactly when no registered driver's can_handle
accepts the scheme. -/
theorem c1_dispatch {α : Type} (uri : String) (u pw : Option String) (p : parsed_uri)
    (hp : db_parse_uri uri = some p) :
    (∀ (pre suf : List (db_driver α)) (d : db_driver α),
        (∀ d2 ∈ pre, d2.can_handle p.scheme = false) → d.can_handle p.scheme = true →
        db_connect (pre ++ d :: suf) uri u pw = Except.ok (d.connect uri u pw)) ∧
    (∀ drivers : List (db_driver α),
        (∀ d2 ∈ drivers, d2.can_handle p.scheme = false) →
        db_connect drivers uri u pw = Except.error sql_error.no_driver) := by
  constructor
  · intro pre suf d hpre hd
    have hfind : (pre ++ d :: suf).find? (fun d2 => d2.can_handle p.scheme) = some d := by
      induction pre with
      | nil => simp [List.find?_cons, hd]
      | cons e pre ih =>
        have he : e.can_handle p.scheme = false := hpre e (List.mem_cons_self e pre)
        simp only [List.cons_append, List.find?_cons, he]
        exact ih (fun d2 h2 => hpre d2 (List.mem_cons_of_mem e h2))
    simp [db_connect, hp, hfind]
  · intro drivers hall
    have hfind : drivers.find? (fun d2 => d2.can_handle p.scheme) = none :=
      List.find?_eq_none.2 (fun x hx => by simp [hall x hx])
    simp [db_connect, hp, hfind]

theorem c1_dispatch_witness :
    db_connect [deaf_driver, demo_driver] "x:y" none none = Except.ok (some 7) ∧
    db_connect [deaf_driver] "x:y" none none = Except.error sql_error.no_driver := by
  have h := c1_dispatch (α := Nat) "x:y" none none
    { scheme := "x", user := none, password := none, host := none, port := none,
      path := "y", params := [], query := [], fragment := none } (by decide)
  constructor
  · exact h.1 [deaf_driver] [] demo_driver
      (by intro d2 hd2; rw [List.mem_singleton.1 hd2]; rfl) rfl
  · exact h.2 [deaf_driver]
      (by intro d2 hd2; rw [List.mem_singleton.1 hd2]; rfl)

/-- C2 counterexample: in the named (and pyformat) styles a parameter
token whose name is absent from the bindings does not produce the
missing-parameter failure — the rewrite succeeds, returning the
(transformed) SQL and the caller's bindings untouched. -/
theorem c2_counterexample :
    get_variant_named_params { sql := ":x", variants := [] } [] ([] : List (String × Nat)) =
      (":x", []) ∧
    get_variant_pyformat_params { sql := ":x", variants := [] } [] ([] : List (String × Nat)) =
      ("%(x)s", []) := by
  exact ⟨by decide, by decide⟩

/-- C2 (amended): in the positional styles (qmark, numeric, format) a
recorded parameter name absent from the bindings fails with the
missing-parameter error, and bindings covering every recorded name —
extra unused entries included — never fail; the name-based styles
(named, pyformat) pass the caller's bindings through unchanged and
cannot fail at rewrite time. -/
theorem c2_missing_binding {α : Type} (q : db_query) (acc : List String)
    (b : List (String × α)) :
    (∀ n, n ∈ paramNamesOf (tokenize (get_variant_sql q acc).toList) → b.lookup n = none →
        get_variant_qmark_params q acc b = none ∧
        get_variant_numeric_params q acc b = none ∧
        get_variant_format_params q acc b = none) ∧
    ((∀ n ∈ paramNamesOf (tokenize (get_variant_sql q acc).toList), (b.lookup n).isSome) →
        (get_variant_qmark_params q acc b).isSome ∧
        (get_variant_numeric_params q acc b).isSome ∧
        (get_variant_format_params q acc b).isSome) ∧
    (get_variant_named_params q acc b).2 = b ∧
    (get_variant_pyformat_params q acc b).2 = b := by
  refine ⟨?_, ?_, rfl, rfl⟩
  · intro n hn hb
    have h0 : lookupParams b (paramNamesOf (tokenize (get_variant_sql q acc).data)) = none :=
      lookupParams_none b _ n hn hb
    exact ⟨by simp [get_variant_qmark_params, h0], by simp [get_variant_numeric_params, h0],
      by simp [get_variant_format_params, h0]⟩
  · intro hall
    have h0 := lookupParams_isSome b _ hall
    obtain ⟨vs, hvs0⟩ := Option.isSome_iff_exists.1 h0
    have hvs : lookupParams b (paramNamesOf (tokenize (get_variant_sql q acc).data)) =
        some vs := hvs0
    exact ⟨by simp [get_variant_qmark_params, hvs], by simp [get_variant_numeric_params, hvs],
      by simp [get_variant_format_params, hvs]⟩

theorem c2_missing_binding_witness :
    get_variant_qmark_params { sql := ":x :y", variants := [] } [] [("x", (1 : Nat))] = none ∧
    (get_variant_qmark_params { sql := ":x :y", variants := [] } []
      [("x", (1 : Nat)), ("y", 2), ("z", 3)]).isSome ∧
    (get_variant_named_params { sql := ":x :y", variants := [] } [] [("x", (1 : Nat))]).2 =
      [("x", 1)] := by
  refine ⟨?_, ?_, ?_⟩
  · exact (c2_missing_binding { sql := ":x :y", variants := [] } [] [("x", (1 : Nat))]).1
      "y" (by decide) (by decide) |>.1
  · exact ((c2_missing_binding { sql := ":x :y", variants := [] } []
      [("x", (1 : Nat)), ("y", 2), ("z", 3)]).2.1 (by decide)).1
  · exact (c2_missing_binding { sql := ":x :y", variants := [] } [] [("x", (1 : Nat))]).2.2.1

/-- C3 counterexample: rewriting "a %_ :x" in format style does not
produce "a %%_ ?" — the format placeholder is percent-s, not a question
mark. -/
theorem c3_counterexample :
    get_variant_format_params { sql := "a %_ :x", variants := [] } [] [("x", (0 : Nat))] ≠
      some ("a %%_ ?", [0]) := by decide

/-- C3 (amended): the format and pyformat other-text transform doubles
every literal percent sign outside parameter tokens, and rewriting
"a %_ :x" in format style with a binding for x produces the SQL text
"a %%_ %s" with a positional argument list of length one. -/
theorem c3_percent_doubling :
    (∀ t : List Char, (percentEscape t).count '%' = 2 * t.count '%') ∧
    get_variant_format_params { sql := "a %_ :x", variants := [] } [] [("x", (0 : Nat))] =
      some ("a %%_ %s", [0]) :=
  ⟨percentEscape_count, by decide⟩

/-- C4 counterexample: in the network location a@b@c the parser takes
"a" (the text before the first at-sign) as user-info and "b@c" as
host — not "a@b" and "c" as splitting at the last at-sign would give. -/
theorem c4_counterexample :
    (db_parse_uri "s://a@b@c/p").map (fun p => (p.user, p.host)) =
      some (some "a", some "b@c") ∧
    (some ((some "a" : Option String), (some "b@c" : Option String))) ≠
      some ((some "a@b" : Option String), (some "c" : Option String)) := by
  exact ⟨by decide, by decide⟩

/-- C4 (amended): the parser splits a network-location segment at its
first at-sign — everything before it is user-info, everything after it
is host with optional port — then splits user-info at its first colon
into user and password and the host part at its first colon into host
and port. -/
theorem c4_netloc_split (a b u1 u2 h1 h2 : List Char)
    (ha : '@' ∉ a) (hu : ':' ∉ u1) (hh : ':' ∉ h1)
    (hau : a = u1 ++ ':' :: u2) (hbh : b = h1 ++ ':' :: h2) :
    parse_netloc (a ++ '@' :: b) = (some u1, some u2, h1, some h2) := by
  have hsp : split_first '@' (a ++ '@' :: b) = some (a, b) := split_first_append '@' a b ha
  have hspu : split_first ':' a = some (u1, u2) := by
    rw [hau]; exact split_first_append ':' u1 u2 hu
  have hsph : split_first ':' b = some (h1, h2) := by
    rw [hbh]; exact split_first_append ':' h1 h2 hh
  simp [parse_netloc, hsp, hspu, hsph]

theorem c4_netloc_split_witness :
    parse_netloc (("u:p").toList ++ '@' :: ("h:q").toList) =
      (some ("u").toList, some ("p").toList, ("h").toList, some ("q").toList) :=
  c4_netloc_split ("u:p").toList ("h:q").toList ("u").toList ("p").toList
    ("h").toList ("q").toList (by decide) (by decide) (by decide) (by decide) (by decide)

/-- C5: a parameter token inside a single-quoted literal is never
extracted as a parameter: whenever the quote grammar matches, the whole
literal is emitted as one quoted span contributing no parameter names;
in particular "select '::x' where a = :a" rewritten to qmark style
yields exactly one placeholder whose single recorded name is a. -/
theorem c5_quoted_inert :
    (∀ cs t rest : List Char, matchQuote cs = some (t, rest) →
        tokenize cs = SqlTok.quoted t :: tokenize rest ∧
        paramNamesOf (tokenize cs) = paramNamesOf (tokenize rest)) ∧
    get_variant_qmark_params { sql := "select '::x' where a = :a", variants := [] } []
      [("a", (0 : Nat))] = some ("select '::x' where a = ?", [0]) ∧
    paramNamesOf (tokenize ("select '::x' where a = :a").toList) = ["a"] := by
  refine ⟨?_, by decide, by decide⟩
  intro cs t rest h
  have hstep := tokenize_quote_step cs t rest h
  exact ⟨hstep, by rw [hstep]; rfl⟩

theorem c5_quoted_inert_witness :
    tokenize ("'a'b").toList = SqlTok.quoted ("'a'").toList :: tokenize ("b").toList ∧
    paramNamesOf (tokenize ("'a'b").toList) = paramNamesOf (tokenize ("b").toList) :=
  c5_quoted_inert.1 ("'a'b").toList ("'a'").toList ("b").toList (by decide)

/-- C6: tokenization is lossless — concatenating all emitted spans in
order reproduces the input exactly — and the named style, whose
placeholder is the original colon-name token and which passes every
other span through verbatim, returns the selected SQL text unchanged
together with the caller's bindings unchanged. -/
theorem c6_lossless :
    (∀ cs : List Char, concatSrc (tokenize cs) = cs) ∧
    (∀ (α : Type) (q : db_query) (acc : List String) (b : List (String × α)),
        get_variant_named_params q acc b = (get_variant_sql q acc, b)) := by
  refine ⟨tokenize_concat, ?_⟩
  intro α q acc b
  unfold get_variant_named_params
  rw [renderToks_named, tokenize_concat, toList_asString]

/-- C7: the example URI parses to scheme pg, user alice, password
secret, host dbhost, port 5432, path /mydb, and a one-element params
list binding user to bob. -/
theorem c7_uri_example :
    db_parse_uri "pg://alice:secret@dbhost:5432/mydb;user=bob" =
      some { scheme := "pg", user := some "alice", password := some "secret",
             host := some "dbhost", port := some "5432", path := "/mydb",
             params := [["user", "bob"]], query := [], fragment := none } := by decide

/-- C8: variant selection returns the text of the first element of the
accepted list (scanned in caller order) that is a key of the variants
mapping, and the default SQL when no element is such a key. -/
theorem c8_variant_selection :
    (∀ (q : db_query) (pre suf : List String) (v s : String),
        (∀ u ∈ pre, q.variants.lookup u = none) → q.variants.lookup v = some s →
        get_variant_sql q (pre ++ v :: suf) = s) ∧
    (∀ (q : db_query) (acc : List String),
        (∀ v ∈ acc, q.variants.lookup v = none) → get_variant_sql q acc = q.sql) := by
  constructor
  · intro q pre suf v s hpre hv
    induction pre with
    | nil => simp [get_variant_sql, hv]
    | cons u pre ih =>
      have hu := hpre u (List.mem_cons_self u pre)
      simp only [List.cons_append, get_variant_sql, hu]
      exact ih (fun w hw => hpre w (List.mem_cons_of_mem u hw))
  · intro q acc hall
    induction acc with
    | nil => rfl
    | cons v acc ih =>
      have hv := hall v (List.mem_cons_self v acc)
      simp only [get_variant_sql, hv]
      exact ih (fun w hw => hall w (List.mem_cons_of_mem v hw))

theorem c8_variant_selection_witness :
    get_variant_sql { sql := "d", variants := [("pg", "P"), ("ora", "O")] } ["x", "ora"] = "O" ∧
    get_variant_sql { sql := "d", variants := [("pg", "P")] } ["x"] = "d" :=
  ⟨c8_variant_selection.1 { sql := "d", variants := [("pg", "P"), ("ora", "O")] }
      ["x"] [] "ora" "O" (by decide) (by decide),
   c8_variant_selection.2 { sql := "d", variants := [("pg", "P")] } ["x"] (by decide)⟩

/-- C9: the tokenizer is total: at a position where none of the three
token grammars matches it emits a one-character other span and advances
by exactly one, and every emitted span stands for at least one input
character, so the scan strictly progresses and finishes on every finite
input. -/
theorem c9_fallback_progress :
    (∀ (c : Char) (cs : List Char),
        matchParam (c :: cs) = none → matchQuote (c :: cs) = none →
        matchOther (c :: cs) = none →
        tokenize (c :: cs) = SqlTok.other [c] :: tokenize cs) ∧
    (∀ (cs : List Char) (t : SqlTok), t ∈ tokenize cs → 1 ≤ (tokSrc t).length) := by
  constructor
  · intro c cs hp hq ho
    simp only [tokenize, List.length_cons, tokenizeGo, hp, hq, ho]
  · intro cs t ht
    exact List.length_pos.2 (tokSrc_ne_nil_go cs.length cs t ht)

theorem c9_fallback_progress_witness :
    matchParam ['\'', 'a'] = none ∧ matchQuote ['\'', 'a'] = none ∧
    matchOther ['\'', 'a'] = none ∧
    tokenize ['\'', 'a'] = SqlTok.other ['\''] :: tokenize ['a'] :=
  ⟨by decide, by decide, by decide,
   c9_fallback_progress.1 '\'' ['a'] (by decide) (by decide) (by decide)⟩

/-- C10: registering an already registered driver leaves the registry
unchanged, register is idempotent, a duplicate-free registry stays
duplicate-free, and every register call preserves the order of the
drivers already present (the old registry is an initial segment of the
new one). -/
theorem c10_register_idempotent {δ : Type} [DecidableEq δ] (d : δ) (l : List δ) :
    (d ∈ l → register_driver d l = l) ∧
    register_driver d (register_driver d l) = register_driver d l ∧
    (l.Nodup → (register_driver d l).Nodup) ∧
    (register_driver d l).take l.length = l := by
  by_cases h : d ∈ l
  · exact ⟨fun _ => by simp [register_driver, h],
      by simp [register_driver, h],
      fun hn => by simpa [register_driver, h] using hn,
      by simp [register_driver, h, List.take_length]⟩
  · have hmem : d ∈ l ++ [d] := by simp
    refine ⟨fun hd => absurd hd h, ?_, fun hn => ?_, ?_⟩
    · simp [register_driver, h, hmem]
    · simp [register_driver, h, List.nodup_append, hn]
    · simp [register_driver, h, List.take_left]

theorem c10_register_idempotent_witness :
    register_driver 1 [1, 2] = [1, 2] ∧ ([1, 2] : List Nat).Nodup ∧
    (register_driver 1 [1, 2]).Nodup := by
  have h := c10_register_idempotent 1 [1, 2]
  exact ⟨h.1 (by decide), by decide, h.2.2.1 (by decide)⟩

end NetsaSql
